import Mathlib

/-!
Verification of the LRU-IPV (Insertion/Promotion Vector) cache replacement
policy from src/mem/cache/replacement_policies/lru_ipv.cc and its header.

The per-line state is a single uint8 field named depth; we model it as a
natural number, applying an explicit mod 256 wherever the C++ code performs
a static_cast to uint8, and mod 2^32 where unsigned arithmetic wraps.
The source material contains two variants of the policy:
the lenient one (lru_ipv.cc, first part) selects a mode at construction
(useIpv when the associativity equals 16, an LRU-like fallback otherwise),
while the strict one (second part) rejects any associativity other than 16
at construction and therefore always runs the table-driven code.
-/

namespace LRUIPV

/-- Designed associativity of the shipped table: static constexpr unsigned
IPV_K = 16 in the header. -/
def IPV_K : Nat := 16

/-- The shipped depth table, from lru_ipv.cc lines 9-12: promotion targets
for positions 0..15, then the insertion position at index 16. -/
def IPV : List Nat := [0, 0, 1, 0, 3, 0, 1, 2, 1, 0, 5, 1, 0, 0, 1, 11, 13]

/-- Modulus of the C++ type unsigned, 2 to the 32. -/
def UNSIGNED_MOD : Nat := 4294967296

/-- Modulus of the C++ type uint8_t, used by every write to the depth field,
which the code performs through a static_cast to uint8_t. -/
def UINT8_MOD : Nat := 256

/-- Mode selection in the lenient constructor: useIpv = (ways == IPV_K). -/
def useIpvOf (ways : Nat) : Bool := ways == IPV_K

/-- LRUIPVRP::reset of the lenient variant (lru_ipv.cc lines 30-47): in IPV
mode the depth becomes IPV[IPV_K]; in fallback mode it becomes
static_cast to uint8_t of (ways - 1), where ways - 1 is computed in the
C++ type unsigned. The prior depth is ignored: the assignment overwrites
it. -/
def reset (ways : Nat) (_depth : Nat) : Nat :=
  if useIpvOf ways then IPV.getD IPV_K 0 % UINT8_MOD
  else ((ways + UNSIGNED_MOD - 1) % UNSIGNED_MOD) % UINT8_MOD

/-- LRUIPVRP::touch of the lenient variant (lru_ipv.cc lines 49-68): in IPV
mode, read cur = depth, clamp cur to IPV_K - 1 when cur >= IPV_K, and set
depth to IPV[cur]; in fallback mode set depth to 0. -/
def touch (ways : Nat) (depth : Nat) : Nat :=
  if useIpvOf ways then
    (IPV.getD (if IPV_K ≤ depth then IPV_K - 1 else depth) 0) % UINT8_MOD
  else 0

/-- LRUIPVRP::invalidate of the lenient variant (lru_ipv.cc lines 70-79):
the body is a bare return, so the depth is left unchanged. -/
def invalidate (depth : Nat) : Nat := depth

/-- The scan of LRUIPVRP::getVictim (lru_ipv.cc lines 96-102): iterate over
the remaining depths at running index i, carrying acc = (victim index,
worst); an element strictly greater than worst becomes the new victim. -/
def getVictimLoop : List Nat → Nat → Nat × Nat → Nat × Nat
  | [], _, acc => acc
  | d :: rest, i, acc =>
    if acc.2 < d then getVictimLoop rest (i + 1) (i, d)
    else getVictimLoop rest (i + 1) acc

/-- LRUIPVRP::getVictim of the lenient variant (lru_ipv.cc lines 81-104),
on the list of candidate depths, returning the index of the chosen
candidate. The victim starts at candidates[0] with worst = its depth, and
the loop runs over all candidates from the front. The empty candidate list
fails the assert at line 90; we model that fatal outcome as none. -/
def getVictim : List Nat → Option Nat
  | [] => none
  | d0 :: rest => some (getVictimLoop (d0 :: rest) 0 (0, d0)).1

/-- State-passing form of getVictim for the frame property: the call
returns the chosen index together with the candidate depths after the
call. The C++ body (lines 81-104) assigns only to the locals victim and
worst and never writes through a replacementData pointer, so the
candidates component passes through unchanged. -/
def getVictimCall (ds : List Nat) : Option Nat × List Nat :=
  (getVictim ds, ds)

/-- LRUIPVRP::reset of the strict variant (lru_ipv.cc lines 129-140): the
depth becomes IPV[IPV_K] unconditionally, cast to uint8_t. -/
def strictReset (_depth : Nat) : Nat := IPV.getD IPV_K 0 % UINT8_MOD

/-- LRUIPVRP::touch of the strict variant (lru_ipv.cc lines 142-155): read
cur = depth, clamp cur to IPV_K - 1 when cur >= IPV_K, set depth to
IPV[cur] cast to uint8_t. -/
def strictTouch (depth : Nat) : Nat :=
  (IPV.getD (if IPV_K ≤ depth then IPV_K - 1 else depth) 0) % UINT8_MOD

/-- LRUIPVRP::invalidate of the strict variant (lru_ipv.cc lines 157-167):
the body is a bare return, leaving the depth unchanged. -/
def strictInvalidate (depth : Nat) : Nat := depth

/-- The scan of the strict variant of LRUIPVRP::getVictim (lru_ipv.cc
lines 184-190), identical in text to the lenient one. -/
def strictGetVictimLoop : List Nat → Nat → Nat × Nat → Nat × Nat
  | [], _, acc => acc
  | d :: rest, i, acc =>
    if acc.2 < d then strictGetVictimLoop rest (i + 1) (i, d)
    else strictGetVictimLoop rest (i + 1) acc

/-- LRUIPVRP::getVictim of the strict variant (lru_ipv.cc lines 169-192). -/
def strictGetVictim : List Nat → Option Nat
  | [] => none
  | d0 :: rest => some (strictGetVictimLoop (d0 :: rest) 0 (0, d0)).1

/-- Invariant of the victim scan: the result of getVictimLoop rest i (b, w)
either keeps the incoming pair (b, w), in which case every remaining depth
is at most w, or it is (i + m, rest[m]) for the first position m of rest
whose depth strictly exceeds w and every other remaining depth, and then
every remaining depth is at most rest[m]. -/
theorem getVictimLoop_spec (rest : List Nat) : ∀ i b w : Nat,
    ((getVictimLoop rest i (b, w)).1 = b ∧ (getVictimLoop rest i (b, w)).2 = w ∧
      ∀ l, l < rest.length → rest.getD l 0 ≤ w) ∨
    (∃ m, m < rest.length ∧ (getVictimLoop rest i (b, w)).1 = i + m ∧
      (getVictimLoop rest i (b, w)).2 = rest.getD m 0 ∧
      w < rest.getD m 0 ∧
      (∀ l, l < m → rest.getD l 0 < rest.getD m 0) ∧
      (∀ l, l < rest.length → rest.getD l 0 ≤ rest.getD m 0)) := by
  induction rest with
  | nil =>
    intro i b w
    left
    refine ⟨rfl, rfl, fun l hl => ?_⟩
    simp at hl
  | cons d rest ih =>
    intro i b w
    by_cases hdw : w < d
    · have hstep : getVictimLoop (d :: rest) i (b, w) =
          getVictimLoop rest (i + 1) (i, d) := by
        simp only [getVictimLoop, hdw, if_pos]
      rw [hstep]
      rcases ih (i + 1) i d with ⟨e1, e2, hall⟩ | ⟨m, hm, e1, e2, hgt, hfst, hall⟩
      · right
        refine ⟨0, by simp, by simpa using e1, by simpa using e2, by simpa using hdw,
          fun l hl => absurd hl (Nat.not_lt_zero l), fun l hl => ?_⟩
        cases l with
        | zero => simp
        | succ l =>
          simp only [List.getD_cons_succ, List.getD_cons_zero]
          exact hall l (by simpa using hl)
      · right
        refine ⟨m + 1, by simpa using hm, ?_, by simpa using e2, ?_, ?_, ?_⟩
        · rw [e1]; omega
        · simp only [List.getD_cons_succ]
          exact lt_trans hdw hgt
        · intro l hl
          cases l with
          | zero => simpa using hgt
          | succ l =>
            simp only [List.getD_cons_succ]
            exact hfst l (by omega)
        · intro l hl
          cases l with
          | zero => simpa using le_of_lt hgt
          | succ l =>
            simp only [List.getD_cons_succ]
            exact hall l (by simpa using hl)
    · have hstep : getVictimLoop (d :: rest) i (b, w) =
          getVictimLoop rest (i + 1) (b, w) := by
        simp only [getVictimLoop, hdw, if_neg, if_false]
      rw [hstep]
      have hdle : d ≤ w := Nat.le_of_not_lt hdw
      rcases ih (i + 1) b w with ⟨e1, e2, hall⟩ | ⟨m, hm, e1, e2, hgt, hfst, hall⟩
      · left
        refine ⟨e1, e2, fun l hl => ?_⟩
        cases l with
        | zero => simpa using hdle
        | succ l =>
          simp only [List.getD_cons_succ]
          exact hall l (by simpa using hl)
      · right
        refine ⟨m + 1, by simpa using hm, ?_, by simpa using e2, ?_, ?_, ?_⟩
        · rw [e1]; omega
        · simp only [List.getD_cons_succ]
          exact hgt
        · intro l hl
          cases l with
          | zero =>
            simp only [List.getD_cons_succ, List.getD_cons_zero]
            exact lt_of_le_of_lt hdle hgt
          | succ l =>
            simp only [List.getD_cons_succ]
            exact hfst l (by omega)
        · intro l hl
          cases l with
          | zero =>
            simp only [List.getD_cons_succ, List.getD_cons_zero]
            exact le_of_lt (lt_of_le_of_lt hdle hgt)
          | succ l =>
            simp only [List.getD_cons_succ]
            exact hall l (by simpa using hl)

/-- Characterization of getVictim on a non-empty candidate list: it returns
the index of the first candidate of maximal depth. -/
theorem getVictim_spec (ds : List Nat) (hne : ds ≠ []) :
    ∃ j, j < ds.length ∧ getVictim ds = some j ∧
      (∀ l, l < ds.length → ds.getD l 0 ≤ ds.getD j 0) ∧
      (∀ l, l < j → ds.getD l 0 < ds.getD j 0) := by
  cases ds with
  | nil => exact absurd rfl hne
  | cons d0 rest =>
    have hstep : getVictimLoop (d0 :: rest) 0 (0, d0) =
        getVictimLoop rest 1 (0, d0) := by
      simp [getVictimLoop]
    rcases getVictimLoop_spec rest 1 0 d0 with ⟨e1, e2, hall⟩ |
      ⟨m, hm, e1, e2, hgt, hfst, hall⟩
    · refine ⟨0, by simp, ?_, ?_, fun l hl => absurd hl (Nat.not_lt_zero l)⟩
      · simp only [getVictim, hstep, e1]
      · intro l hl
        cases l with
        | zero => exact le_refl _
        | succ l =>
          simp only [List.getD_cons_succ, List.getD_cons_zero]
          exact hall l (by simpa using hl)
    · refine ⟨m + 1, by simpa using hm, ?_, ?_, ?_⟩
      · simp only [getVictim, hstep, e1]
        congr 1
        omega
      · intro l hl
        cases l with
        | zero =>
          simp only [List.getD_cons_succ, List.getD_cons_zero]
          exact le_of_lt hgt
        | succ l =>
          simp only [List.getD_cons_succ]
          exact hall l (by simpa using hl)
      · intro l hl
        cases l with
        | zero =>
          simp only [List.getD_cons_succ, List.getD_cons_zero]
          exact hgt
        | succ l =>
          simp only [List.getD_cons_succ]
          exact hfst l (by omega)

/-- C1: for every non-empty candidate sequence, getVictim returns the
earliest candidate in iteration order whose depth is maximal: the returned
index j is in range, the depth at j is at least the depth of every
candidate, every candidate at an earlier position has a strictly smaller
depth (so none of them attains the maximal depth), and for depths
[3, 7, 7, 2] the candidate at index 1 is returned. -/
theorem c1_getVictim_first_max (ds : List Nat) (hne : ds ≠ []) :
    (∃ j, j < ds.length ∧ getVictim ds = some j ∧
      (∀ l, l < ds.length → ds.getD l 0 ≤ ds.getD j 0) ∧
      (∀ l, l < j → ds.getD l 0 < ds.getD j 0)) ∧
    getVictim [3, 7, 7, 2] = some 1 :=
  ⟨getVictim_spec ds hne, by decide⟩

/-- Witness for C1 at the concrete depth list [3, 7, 7, 2]. -/
theorem c1_getVictim_first_max_witness :
    (∃ j, j < ([3, 7, 7, 2] : List Nat).length ∧
      getVictim [3, 7, 7, 2] = some j ∧
      (∀ l, l < ([3, 7, 7, 2] : List Nat).length →
        ([3, 7, 7, 2] : List Nat).getD l 0 ≤ ([3, 7, 7, 2] : List Nat).getD j 0) ∧
      (∀ l, l < j →
        ([3, 7, 7, 2] : List Nat).getD l 0 < ([3, 7, 7, 2] : List Nat).getD j 0)) ∧
    getVictim [3, 7, 7, 2] = some 1 :=
  c1_getVictim_first_max [3, 7, 7, 2] (by decide)

/-- C7: the empty candidate sequence is a fatal contract violation, modelled
as the none outcome of getVictim, and under the non-emptiness precondition
exactly one candidate index is returned, a valid position in the sequence. -/
theorem c7_empty_fatal_nonempty_some (ds : List Nat) (hne : ds ≠ []) :
    getVictim [] = none ∧ ∃ j, j < ds.length ∧ getVictim ds = some j := by
  obtain ⟨j, hj, hg, _, _⟩ := getVictim_spec ds hne
  exact ⟨rfl, j, hj, hg⟩

/-- Witness for C7 at the concrete depth list [5]. -/
theorem c7_empty_fatal_nonempty_some_witness :
    getVictim [] = none ∧
    ∃ j, j < ([5] : List Nat).length ∧ getVictim [5] = some j :=
  c7_empty_fatal_nonempty_some [5] (by decide)

/-- C10: getVictim is read-only with respect to the candidates: in the
state-passing form, the candidate depths after the call equal the depths
before the call, elementwise and as a whole, and the returned index is that
of getVictim. -/
theorem c10_getVictim_readonly (ds : List Nat) (_hne : ds ≠ []) :
    (getVictimCall ds).2 = ds ∧
    (∀ l, l < ds.length → (getVictimCall ds).2.getD l 0 = ds.getD l 0) ∧
    (getVictimCall ds).1 = getVictim ds :=
  ⟨rfl, fun _ _ => rfl, rfl⟩

/-- Witness for C10 at the concrete depth list [7, 3]. -/
theorem c10_getVictim_readonly_witness :
    (getVictimCall [7, 3]).2 = [7, 3] ∧
    (∀ l, l < ([7, 3] : List Nat).length →
      (getVictimCall [7, 3]).2.getD l 0 = ([7, 3] : List Nat).getD l 0) ∧
    (getVictimCall [7, 3]).1 = getVictim [7, 3] :=
  c10_getVictim_readonly [7, 3] (by decide)

/-- Mode selection on a mismatched associativity: useIpv is false whenever
ways differs from 16. -/
theorem useIpvOf_eq_false {w : Nat} (hw : w ≠ 16) : useIpvOf w = false := by
  simp only [useIpvOf, IPV_K]
  exact beq_eq_false_iff_ne.mpr hw

/-- Every entry of the shipped table is below 256, so the uint8 cast on a
table lookup is the identity. -/
theorem IPV_getD_mod (c : Nat) (hc : c < 17) :
    IPV.getD c 0 % UINT8_MOD = IPV.getD c 0 := by
  revert c
  decide

/-- C2: in exact mode (associativity 16), touch sets the depth to
IPV[i] for a current depth i below IPV_K and to IPV[IPV_K - 1] otherwise
(the defensive clamp); with the shipped table, promoting a line at depth 13
yields depth 0, and a freshly inserted line driven by two hits passes
through depths 13, then 0, then 0. -/
theorem c2_touch_exact (i : Nat) :
    touch 16 i = IPV.getD (if i < IPV_K then i else IPV_K - 1) 0 ∧
    touch 16 13 = 0 ∧
    reset 16 0 = 13 ∧ touch 16 (reset 16 0) = 0 ∧
    touch 16 (touch 16 (reset 16 0)) = 0 := by
  refine ⟨?_, by decide, by decide, by decide, by decide⟩
  have e : IPV_K = 16 := rfl
  show (IPV.getD (if IPV_K ≤ i then IPV_K - 1 else i) 0) % UINT8_MOD =
    IPV.getD (if i < IPV_K then i else IPV_K - 1) 0
  by_cases h : IPV_K ≤ i
  · rw [if_pos h, if_neg (by omega : ¬ i < IPV_K)]
    exact IPV_getD_mod (IPV_K - 1) (by decide)
  · rw [if_neg h, if_pos (by omega : i < IPV_K)]
    exact IPV_getD_mod i (by omega)

/-- C3: in exact mode (associativity 16), reset sets the depth to the
insertion entry IPV[IPV_K] of the shipped table, which equals 13,
regardless of the prior depth. -/
theorem c3_reset_exact (d : Nat) :
    reset 16 d = IPV.getD IPV_K 0 ∧ IPV.getD IPV_K 0 = 13 :=
  ⟨rfl, rfl⟩

set_option maxRecDepth 8000 in
/-- C4: the shipped table is well-formed: every entry at indices 0..IPV_K,
the insertion entry included, is below IPV_K; consequently in exact mode
every single reset or touch, from any uint8 starting depth, lands in
[0, IPV_K - 1]. -/
theorem c4_table_wellformed :
    (∀ j : Fin (IPV_K + 1), IPV.getD j.val 0 < IPV_K) ∧
    (∀ d : Fin 256, reset 16 d.val < IPV_K ∧ touch 16 d.val < IPV_K) := by
  decide

/-- C5 counterexample: with associativity 257 (positive and distinct from
16), the degraded reset stores the uint8 cast of 256, namely 0, not
257 - 1 = 256; the claim fails as stated for every positive associativity. -/
theorem c5_counterexample :
    reset 257 0 = 0 ∧ reset 257 0 ≠ 257 - 1 := by
  decide

/-- C5 amended: in degraded mode, for every positive associativity of at
most 256 (other than 16), reset sets the depth to exactly
associativity - 1, a value within [0, associativity - 1]. -/
theorem c5_reset_degraded (w : Nat) (h0 : 0 < w) (h1 : w ≤ 256)
    (h2 : w ≠ 16) : reset w 0 = w - 1 ∧ w - 1 < w := by
  have hb : useIpvOf w = false := useIpvOf_eq_false h2
  unfold reset
  rw [hb, if_neg Bool.false_ne_true]
  unfold UNSIGNED_MOD UINT8_MOD
  omega

/-- Witness for C5 at associativity 2. -/
theorem c5_reset_degraded_witness : reset 2 0 = 2 - 1 ∧ 2 - 1 < 2 :=
  c5_reset_degraded 2 (by decide) (by decide) (by decide)

/-- C6: in degraded mode (associativity other than 16), touch sets the
depth to 0 for every prior depth; with associativity 2, inserting yields
depth 1, one promotion yields depth 0, and victim selection between depths
0 and 1 returns the depth-1 line. -/
theorem c6_touch_degraded (w d : Nat) (hw : w ≠ 16) :
    touch w d = 0 ∧ reset 2 0 = 1 ∧ touch 2 (reset 2 0) = 0 ∧
    getVictim [0, 1] = some 1 := by
  have hb : useIpvOf w = false := useIpvOf_eq_false hw
  refine ⟨?_, by decide, by decide, by decide⟩
  unfold touch
  rw [hb, if_neg Bool.false_ne_true]

/-- Witness for C6 at associativity 2 and prior depth 5. -/
theorem c6_touch_degraded_witness :
    touch 2 5 = 0 ∧ reset 2 0 = 1 ∧ touch 2 (reset 2 0) = 0 ∧
    getVictim [0, 1] = some 1 :=
  c6_touch_degraded 2 5 (by decide)

/-- C8: invalidate is a no-op on policy state: the depth after the call
equals the depth before it. -/
theorem c8_invalidate_noop (d : Nat) : invalidate d = d := rfl

/-- The two textually identical victim scans compute the same result. -/
theorem strictGetVictimLoop_eq (rest : List Nat) :
    ∀ i acc, strictGetVictimLoop rest i acc = getVictimLoop rest i acc := by
  induction rest with
  | nil => intro i acc; rfl
  | cons d rest ih =>
    intro i acc
    simp only [strictGetVictimLoop, getVictimLoop]
    by_cases h : acc.2 < d
    · rw [if_pos h, if_pos h, ih]
    · rw [if_neg h, if_neg h, ih]

/-- C9: at associativity 16, the lenient variant and the strict variant are
behaviorally equivalent: reset, touch, invalidate and getVictim produce
identical state updates and identical return values on every state and
every candidate sequence. -/
theorem c9_variants_equivalent (d : Nat) (ds : List Nat) :
    reset 16 d = strictReset d ∧ touch 16 d = strictTouch d ∧
    invalidate d = strictInvalidate d ∧ getVictim ds = strictGetVictim ds := by
  refine ⟨rfl, rfl, rfl, ?_⟩
  cases ds with
  | nil => rfl
  | cons d0 rest =>
    simp only [getVictim, strictGetVictim, strictGetVictimLoop_eq]

end LRUIPV
